import Mathlib

/-!
Verification of the card auto-rotation animation engine ("CardSwap") and the
scroll-activated highlighter of the portfolio-website repository.

The development shallowly embeds the relevant source functions:

* `makeSlot` — the slot geometry helper of `CardSwap` (position-in-stack to
  3D offset and stacking order), offsets as rationals.
* `swapSchedule` — the `swap` function of `CardSwap`: given the current order
  and the presence of each card's DOM handle, it either aborts (fewer than two
  cards, or missing front handle) or produces the GSAP timeline it builds —
  a list of scheduled events (tweens, zIndex sets, attribute calls, and the
  final `tl.call` that rewrites `order.current`), each with its timeline
  position in seconds.
* A millisecond-granularity engine state machine (`Engine`, `tick`, `pauseM`,
  `resumeM`, `swapM`) embedding the `setInterval` timer, the timeline `pause`
  / `play` handlers installed when `pauseOnHover` is set, and the commit
  callback that fires when a timeline's playhead reaches its end.
* `observerCallback` — the `IntersectionObserver` callback of `AboutSection`
  driving the single active-card index.
-/

/-- A computed 3D placement for a stack position, as produced by `makeSlot`
in `CardSwap`: x/y/z offsets plus the stacking order (`zIndex`). -/
structure Slot where
  x : ℚ
  y : ℚ
  z : ℚ
  zIndex : ℤ
  deriving DecidableEq, Repr

/-- `makeSlot(i, distX, distY, total)` from `CardSwap`:
`{ x: i*distX, y: -i*distY, z: -i*distX*1.5, zIndex: total - i }`. -/
def makeSlot (i : ℕ) (distX distY : ℚ) (total : ℕ) : Slot :=
  { x := i * distX
    y := -(i : ℚ) * distY
    z := -(i : ℚ) * distX * 1.5
    zIndex := (total : ℤ) - i }

/-- The per-easing animation configuration of `CardSwap` (`config`):
durations of the drop / move / return tweens, the drop-promote overlap
fraction, and the promote-to-return delay fraction. -/
structure SwapConfig where
  durDrop : ℚ
  durMove : ℚ
  durReturn : ℚ
  promoteOverlap : ℚ
  returnDelay : ℚ
  deriving DecidableEq, Repr

/-- The `easing === 'elastic'` branch of `config` in `CardSwap`. -/
def elasticConfig : SwapConfig :=
  { durDrop := 2, durMove := 2, durReturn := 2
    promoteOverlap := 0.9, returnDelay := 0.05 }

/-- The `power` (non-elastic) branch of `config` in `CardSwap`. -/
def powerConfig : SwapConfig :=
  { durDrop := 0.8, durMove := 0.8, durReturn := 0.8
    promoteOverlap := 0.45, returnDelay := 0.2 }

/-- One event placed on the GSAP timeline by `swap` in `CardSwap`.
Tween events carry their start time and duration; `set` / attribute-call
events carry the timeline position at which they fire; `commit` is the final
`tl.call` that assigns `order.current = [...rest, front]`. -/
inductive TLEvent where
  /-- `tl.to(elFront, { y: '+=500', duration: durDrop })` -/
  | dropTween (card : ℕ) (start dur : ℚ)
  /-- `tl.set(el, { zIndex: slot.zIndex }, 'promote')`, or the zIndex reset of
  the dropped card at the `return` label. -/
  | setZ (card : ℕ) (z : ℤ) (pos : ℚ)
  /-- `tl.to(el, { x, y, z, duration }, position)` -/
  | moveTween (card : ℕ) (target : Slot) (start dur : ℚ)
  /-- the `tl.call` updating the `data-is-front` attribute -/
  | frontAttr (card : ℕ) (isFront : Bool) (pos : ℚ)
  /-- `tl.call(() => { order.current = [...rest, front] })` -/
  | commit (newOrder : List ℕ) (pos : ℚ)
  deriving DecidableEq, Repr

/-- The card a timeline event manipulates (`none` for the order commit). -/
def TLEvent.card? : TLEvent → Option ℕ
  | .dropTween c _ _ => some c
  | .setZ c _ _ => some c
  | .moveTween c _ _ _ => some c
  | .frontAttr c _ _ => some c
  | .commit _ _ => none

/-- The timeline position at which an event finishes (tween start + duration;
call/set events are instantaneous). -/
def TLEvent.endTime : TLEvent → ℚ
  | .dropTween _ s d => s + d
  | .setZ _ _ t => t
  | .moveTween _ _ s d => s + d
  | .frontAttr _ _ t => t
  | .commit _ t => t

/-- The duration of a GSAP timeline holding the given events: the latest
end time among its children (0 for an empty timeline). A child appended
with no position parameter — such as the final commit `tl.call` — is
placed at this position. -/
def tlEnd (es : List TLEvent) : ℚ :=
  es.foldr (fun e acc => max e.endTime acc) 0

/-- The PROMOTE phase of `swap`: `rest.forEach((idx, i) => ...)`. For each
remaining card whose handle is mounted, a zIndex set at the `promote` label,
a move tween to the slot one position closer to front starting at
`promote + i*0.15`, and the `data-is-front` attribute call at `promote`;
cards with missing handles are skipped (`if (!el) return`). -/
def swapPromoteEvents (distX distY : ℚ) (present : ℕ → Bool) (total : ℕ)
    (promote durMove : ℚ) (rest : List ℕ) : List TLEvent :=
  rest.enum.flatMap fun p =>
    if present p.2 then
      let slot := makeSlot p.1 distX distY total
      [.setZ p.2 slot.zIndex promote,
       .moveTween p.2 slot (promote + p.1 * 0.15) durMove,
       .frontAttr p.2 (p.1 == 0) promote]
    else []

/-- The animation phases `swap` schedules before the order commit: the DROP
tween of the front card at position 0; the `promote` label at
`durDrop - durDrop * promoteOverlap` with the PROMOTE phase; the `return`
label at `promote + durMove * returnDelay` with the dropped card's zIndex
reset, its move tween to the back slot, and its attribute call. -/
def swapPreEvents (cfg : SwapConfig) (distX distY : ℚ) (present : ℕ → Bool)
    (total : ℕ) (front : ℕ) (rest : List ℕ) : List TLEvent :=
  let promote := cfg.durDrop - cfg.durDrop * cfg.promoteOverlap
  let retLabel := promote + cfg.durMove * cfg.returnDelay
  let backSlot := makeSlot (total - 1) distX distY total
  [.dropTween front 0 cfg.durDrop]
    ++ swapPromoteEvents distX distY present total promote cfg.durMove rest
    ++ [.setZ front backSlot.zIndex retLabel,
        .moveTween front backSlot retLabel cfg.durReturn,
        .frontAttr front false retLabel]

/-- The `swap` function of `CardSwap`, as the timeline it schedules.

`present idx` models `refs[idx].current` being non-null. Mirroring the
source: if fewer than two cards, return without scheduling (`none`); if the
front card's handle is missing, return without scheduling; otherwise build
the timeline of animation phases (`swapPreEvents`) and append the
order-commit `tl.call` at the end of the timeline. -/
def swapSchedule (cfg : SwapConfig) (distX distY : ℚ) (present : ℕ → Bool)
    (total : ℕ) (order : List ℕ) : Option (List TLEvent) :=
  if order.length < 2 then none
  else
    match order with
    | [] => none
    | front :: rest =>
      if present front then
        let pre := swapPreEvents cfg distX distY present total front rest
        some (pre ++ [.commit (rest ++ [front]) (tlEnd pre)])
      else none

/-- The effect of the timeline's commit callbacks on `order.current` once the
timeline has played to completion: each commit assigns its captured
`[...rest, front]`. -/
def applyCommits (order : List ℕ) (es : List TLEvent) : List ℕ :=
  es.foldl
    (fun ord e => match e with
      | .commit newOrder _ => newOrder
      | _ => ord)
    order

/-- The effect on `order.current` of only those commit callbacks whose
timeline position is at most playhead time `t` (so `applyCommitsUpTo 0`
is the state right after `swap` returns, before the timeline has played). -/
def applyCommitsUpTo (t : ℚ) (order : List ℕ) (es : List TLEvent) : List ℕ :=
  es.foldl
    (fun ord e => match e with
      | .commit newOrder pos => if pos ≤ t then newOrder else ord
      | _ => ord)
    order

/-- One invocation of `swap` followed by the timeline playing to completion:
the order is unchanged when `swap` aborts, and otherwise rewritten by the
timeline's commit callback. -/
def runSwap (cfg : SwapConfig) (distX distY : ℚ) (present : ℕ → Bool)
    (total : ℕ) (order : List ℕ) : List ℕ :=
  match swapSchedule cfg distX distY present total order with
  | none => order
  | some evs => applyCommits order evs

/-- One completed rotation cycle with every card handle mounted, as driven by
the `setInterval` timer: `swap` on the current order (`refs.length` cards)
and the timeline run to its end. -/
def rotateEngineStep (cfg : SwapConfig) (distX distY : ℚ)
    (order : List ℕ) : List ℕ :=
  runSwap cfg distX distY (fun _ => true) order.length order

/-- From `rendered` in `CardSwap`: the onClick handler injected into child
`i` of `childArr` invokes `onCardClick?.(i)` — the argument is the child's
(stable) index in the children array. -/
def clickCallbackArg (childIndex : ℕ) : ℕ := childIndex

/-- Modelled from the spec: the "display position" of a card — its current
position in the front-to-back Order (position 0 = front). Stated for
comparison with `clickCallbackArg`; no such function exists in the source. -/
def displayPosition (order : List ℕ) (card : ℕ) : ℕ := order.indexOf card

/-! ## The millisecond-granularity engine state machine

Embeds the mutable state of the `CardSwap` effect: `order.current`, the
in-flight GSAP timelines (`tlRef.current` is the most recently created one,
the head of the list), the repeating `setInterval` timer, and the number of
`swap` invocations. Time advances in 1 ms `tick`s. -/

/-- An in-flight GSAP timeline: milliseconds until its playhead reaches the
final commit `tl.call`, the order that call assigns (captured `[...rest,
front]`), and whether the timeline is paused. -/
structure TimelineM where
  remaining : ℕ
  commitOrder : List ℕ
  paused : Bool
  deriving DecidableEq, Repr

/-- Engine-level configuration: the `delay` prop (ms) passed to
`setInterval`, the timeline duration in ms (position of the commit call),
and the mounted-handle predicate. -/
structure MachineConfig where
  delay : ℕ
  tlDur : ℕ
  present : ℕ → Bool

/-- The mutable state of a `CardSwap` instance. -/
structure Engine where
  order : List ℕ
  timelines : List TimelineM
  timerActive : Bool
  timerRemaining : ℕ
  swapCalls : ℕ
  deriving DecidableEq, Repr

/-- One invocation of `swap` at the machine level: count the call; return
unchanged if fewer than two cards or the front handle is missing; otherwise
create a fresh (unpaused) timeline whose commit will assign
`[...rest, front]`, and store it as `tlRef.current` (head). -/
def swapM (cfg : MachineConfig) (s : Engine) : Engine :=
  if s.order.length < 2 then { s with swapCalls := s.swapCalls + 1 }
  else
    match s.order with
    | [] => { s with swapCalls := s.swapCalls + 1 }
    | front :: rest =>
      if cfg.present front then
        { s with
            swapCalls := s.swapCalls + 1
            timelines := ⟨cfg.tlDur, rest ++ [front], false⟩ :: s.timelines }
      else { s with swapCalls := s.swapCalls + 1 }

/-- `tlRef.current?.pause()` / `tlRef.current?.play()`: set the paused flag
of the most recently created timeline, if any. -/
def setTlRefPaused (b : Bool) : List TimelineM → List TimelineM
  | [] => []
  | t :: rest => { t with paused := b } :: rest

/-- The `mouseenter` handler installed when `pauseOnHover` is set:
`tlRef.current?.pause()` then `clearInterval(intervalRef.current)`. -/
def pauseM (s : Engine) : Engine :=
  { s with timelines := setTlRefPaused true s.timelines, timerActive := false }

/-- The `mouseleave` handler installed when `pauseOnHover` is set:
`tlRef.current?.play()` then `intervalRef.current = setInterval(swap, delay)`
— the repeating timer is re-armed with the full configured interval. -/
def resumeM (cfg : MachineConfig) (s : Engine) : Engine :=
  { s with
      timelines := setTlRefPaused false s.timelines
      timerActive := true
      timerRemaining := cfg.delay }

/-- One millisecond of the `setInterval` timer: when armed and its period
elapses, invoke `swap` and re-arm with the full period. -/
def timerStep (cfg : MachineConfig) (s : Engine) : Engine :=
  if s.timerActive then
    if s.timerRemaining ≤ 1 then swapM cfg { s with timerRemaining := cfg.delay }
    else { s with timerRemaining := s.timerRemaining - 1 }
  else s

/-- One millisecond of timeline playback. Paused timelines do not advance;
an unpaused timeline whose playhead reaches the end fires its commit
callback (assigning its captured order) and is dropped; processing is
oldest-first so the newest timeline's commit wins if several fire at once. -/
def advanceTLs (order : List ℕ) : List TimelineM → List ℕ × List TimelineM
  | [] => (order, [])
  | t :: rest =>
    let p := advanceTLs order rest
    if t.paused then (p.1, t :: p.2)
    else if t.remaining ≤ 1 then (t.commitOrder, p.2)
    else (p.1, { t with remaining := t.remaining - 1 } :: p.2)

/-- One millisecond of engine time: the timer step, then timeline playback. -/
def tick (cfg : MachineConfig) (s : Engine) : Engine :=
  let s' := timerStep cfg s
  let p := advanceTLs s'.order s'.timelines
  { s' with order := p.1, timelines := p.2 }

/-- The state created on mount, before the immediate first `swap`:
`order.current = [0, 1, ..., n-1]` (`Array.from({length}, (_, i) => i)`),
no timeline yet, and the repeating timer armed with the full period. -/
def initEngine (cfg : MachineConfig) (n : ℕ) : Engine :=
  { order := List.range n
    timelines := []
    timerActive := true
    timerRemaining := cfg.delay
    swapCalls := 0 }

/-- The operations that can act on the engine state: a millisecond of time,
the two hover handlers, and a direct `swap` invocation (the immediate first
rotation performed on mount). -/
inductive EngineOp where
  | tickOp
  | pauseOp
  | resumeOp
  | swapOp
  deriving DecidableEq, Repr

/-- Apply one engine operation. -/
def applyOp (cfg : MachineConfig) (s : Engine) : EngineOp → Engine
  | .tickOp => tick cfg s
  | .pauseOp => pauseM s
  | .resumeOp => resumeM cfg s
  | .swapOp => swapM cfg s

/-- Run a sequence of engine operations. -/
def runOps (cfg : MachineConfig) (s : Engine) (ops : List EngineOp) : Engine :=
  ops.foldl (applyOp cfg) s

/-- The engine invariant behind the Order data model: `order.current` is a
permutation of `[0..N-1]`, and so is the order any in-flight commit
callback would assign. -/
def EngineInv (n : ℕ) (s : Engine) : Prop :=
  s.order.Perm (List.range n) ∧
    ∀ t ∈ s.timelines, t.commitOrder.Perm (List.range n)

/-! ## The scroll-activated highlighter (`AboutSection`) -/

/-- The `IntersectionObserver` callback of `AboutSection`: for each entry in
order, if it is intersecting the activation band, `setActiveCard` to that
entry's `data-card-index`. An entry is modelled as (index, isIntersecting). -/
def observerCallback (entries : List (ℕ × Bool)) (active : ℕ) : ℕ :=
  entries.foldl (fun acc e => if e.2 then e.1 else acc) active

/-- `useState(0)`: the initial active card index. -/
def initialActiveCard : ℕ := 0

/-- The active index after a sequence of observer callback invocations,
starting from the initial state. -/
def runObserver (events : List (List (ℕ × Bool))) : ℕ :=
  events.foldl (fun a es => observerCallback es a) initialActiveCard

/-! ## Helper lemmas -/

theorem applyCommits_append_commit (ord : List ℕ) (es : List TLEvent)
    (o : List ℕ) (t : ℚ) :
    applyCommits ord (es ++ [.commit o t]) = o := by
  simp [applyCommits, List.foldl_append]

theorem snd_mem_of_mem_enum {α : Type} {l : List α} {p : ℕ × α}
    (h : p ∈ l.enum) : p.2 ∈ l := by
  have := List.mem_enum_iff_getElem?.1 h
  exact List.getElem?_mem this

theorem mem_swapPromoteEvents {distX distY : ℚ} {present : ℕ → Bool}
    {total : ℕ} {promote durMove : ℚ} {rest : List ℕ} {e : TLEvent}
    (he : e ∈ swapPromoteEvents distX distY present total promote durMove rest) :
    ∃ c ∈ rest, present c = true ∧ e.card? = some c := by
  simp only [swapPromoteEvents, List.mem_flatMap] at he
  obtain ⟨p, hp, he⟩ := he
  by_cases hpr : present p.2 = true
  · refine ⟨p.2, snd_mem_of_mem_enum hp, hpr, ?_⟩
    simp only [hpr, if_true, List.mem_cons, List.mem_singleton,
      List.not_mem_nil] at he
    rcases he with rfl | rfl | rfl | h
    · rfl
    · rfl
    · rfl
    · exact absurd h (by simp)
  · simp [hpr] at he

theorem mem_swapPreEvents {cfg : SwapConfig} {distX distY : ℚ}
    {present : ℕ → Bool} {total front : ℕ} {rest : List ℕ} {e : TLEvent}
    (he : e ∈ swapPreEvents cfg distX distY present total front rest) :
    ∃ c, e.card? = some c ∧
      (c = front ∨ (c ∈ rest ∧ present c = true)) := by
  simp only [swapPreEvents, List.mem_append, List.mem_cons,
    List.mem_singleton, List.not_mem_nil, or_false] at he
  rcases he with (rfl | he) | (rfl | rfl | rfl)
  · exact ⟨front, rfl, Or.inl rfl⟩
  · obtain ⟨c, hc, hpr, hcard⟩ := mem_swapPromoteEvents he
    exact ⟨c, hcard, Or.inr ⟨hc, hpr⟩⟩
  · exact ⟨front, rfl, Or.inl rfl⟩
  · exact ⟨front, rfl, Or.inl rfl⟩
  · exact ⟨front, rfl, Or.inl rfl⟩

theorem applyCommitsUpTo_of_no_commit (t : ℚ) (ord : List ℕ)
    (es : List TLEvent) (h : ∀ e ∈ es, (TLEvent.card? e).isSome) :
    applyCommitsUpTo t ord es = ord := by
  induction es generalizing ord with
  | nil => rfl
  | cons e es ih =>
    have he : (TLEvent.card? e).isSome := h e (List.mem_cons_self e es)
    have htail := fun x hx => h x (List.mem_cons_of_mem e hx)
    cases e with
    | commit o p => simp [TLEvent.card?] at he
    | dropTween c s d => exact ih ord htail
    | setZ c z p => exact ih ord htail
    | moveTween c tg s d => exact ih ord htail
    | frontAttr c b p => exact ih ord htail

theorem le_tlEnd {e : TLEvent} {es : List TLEvent} (he : e ∈ es) :
    e.endTime ≤ tlEnd es := by
  induction es with
  | nil => cases he
  | cons x xs ih =>
    rcases List.mem_cons.1 he with rfl | h
    · exact le_max_left _ _
    · exact le_trans (ih h) (le_max_right _ _)

theorem swapSchedule_cons (cfg : SwapConfig) (distX distY : ℚ)
    (present : ℕ → Bool) (total front : ℕ) (rest : List ℕ)
    (hrest : rest ≠ []) (hfront : present front = true) :
    swapSchedule cfg distX distY present total (front :: rest) =
      some (swapPreEvents cfg distX distY present total front rest ++
        [.commit (rest ++ [front])
          (tlEnd (swapPreEvents cfg distX distY present total front rest))]) := by
  have hpos : 0 < rest.length := List.length_pos.2 hrest
  have hlen : ¬ (front :: rest).length < 2 := by
    simp only [List.length_cons]
    omega
  simp [swapSchedule, hlen, hfront]
  omega

theorem applyCommitsUpTo_append_commit (t : ℚ) (ord : List ℕ)
    (es : List TLEvent) (o : List ℕ) (pos : ℚ) :
    applyCommitsUpTo t ord (es ++ [.commit o pos]) =
      if pos ≤ t then o else applyCommitsUpTo t ord es := by
  simp only [applyCommitsUpTo, List.foldl_append, List.foldl_cons, List.foldl_nil]

theorem rotateEngineStep_rotate (cfg : SwapConfig) (dx dy : ℚ)
    (l : List ℕ) (hl : 2 ≤ l.length) :
    rotateEngineStep cfg dx dy l = l.rotate 1 := by
  match l with
  | a :: rest =>
    have hrest : rest ≠ [] := by
      intro h
      subst h
      simp at hl
    have hs := swapSchedule_cons cfg dx dy (fun _ => true)
      (a :: rest).length a rest hrest rfl
    have hrot : (a :: rest).rotate 1 = rest ++ [a] := by
      have h := List.rotate_cons_succ rest a 0
      rw [List.rotate_zero] at h
      exact h
    simp only [rotateEngineStep, runSwap, hs, applyCommits_append_commit, hrot]

/-- C1: for every card count N ≥ 2 and every number k of completed rotation
cycles, the Order after k cycles equals the identity sequence rotated left
by k mod N positions (a completed cycle being one `swap` whose timeline has
run through its final commit call). In particular (witness) with 3 cards the
Order is `[1, 2, 0]` after the immediate first cycle and `[2, 0, 1]` after
one more. -/
theorem order_after_cycles_c1 (cfg : SwapConfig) (dx dy : ℚ) (N k : ℕ)
    (hN : 2 ≤ N) :
    (rotateEngineStep cfg dx dy)^[k] (List.range N) =
      (List.range N).rotate (k % N) := by
  have hmod : (List.range N).rotate (k % N) = (List.range N).rotate k := by
    conv_lhs => rw [show k % N = k % (List.range N).length by rw [List.length_range]]
    exact List.rotate_mod _ _
  rw [hmod]
  clear hmod
  induction k with
  | zero => simp
  | succ k ih =>
    rw [Function.iterate_succ_apply', ih, rotateEngineStep_rotate, List.rotate_rotate]
    rw [List.length_rotate, List.length_range]
    exact hN

theorem order_after_cycles_c1_witness :
    (rotateEngineStep elasticConfig 60 70)^[1] (List.range 3) = [1, 2, 0] ∧
    (rotateEngineStep elasticConfig 60 70)^[2] (List.range 3) = [2, 0, 1] := by
  constructor
  · rw [order_after_cycles_c1 elasticConfig 60 70 3 1 (by decide)]
    decide
  · rw [order_after_cycles_c1 elasticConfig 60 70 3 2 (by decide)]
    decide

/-- C2: the slot geometry calculator is pure and total, with
horizontalOffset `i * distX`, verticalOffset `-i * distY`, depthOffset
`-i * distX * 1.5`, stackingOrder `total - i`, and the stacking order is
strictly decreasing in the position, so the front card has the highest
stacking order. -/
theorem slot_geometry_c2 (dx dy : ℚ) (total i j : ℕ)
    (hij : i < j) (hj : j < total) :
    (makeSlot i dx dy total).x = i * dx ∧
    (makeSlot i dx dy total).y = -(i : ℚ) * dy ∧
    (makeSlot i dx dy total).z = -(i : ℚ) * dx * 1.5 ∧
    (makeSlot i dx dy total).zIndex = (total : ℤ) - i ∧
    (makeSlot j dx dy total).zIndex < (makeSlot i dx dy total).zIndex := by
  refine ⟨rfl, rfl, rfl, rfl, ?_⟩
  simp only [makeSlot]
  omega

theorem slot_geometry_c2_witness :
    (makeSlot 0 60 70 3).x = (0 : ℕ) * 60 ∧
    (makeSlot 0 60 70 3).y = -((0 : ℕ) : ℚ) * 70 ∧
    (makeSlot 0 60 70 3).z = -((0 : ℕ) : ℚ) * 60 * 1.5 ∧
    (makeSlot 0 60 70 3).zIndex = ((3 : ℕ) : ℤ) - (0 : ℕ) ∧
    (makeSlot 1 60 70 3).zIndex < (makeSlot 0 60 70 3).zIndex :=
  slot_geometry_c2 60 70 3 0 1 (by decide) (by decide)

/-- C7: with fewer than two cards, `swap` schedules nothing and any number
of invocations leaves the Order unchanged. -/
theorem small_stack_noop_c7 (cfg : SwapConfig) (dx dy : ℚ)
    (present : ℕ → Bool) (total : ℕ) (order : List ℕ) (k : ℕ)
    (h : order.length < 2) :
    (fun o => runSwap cfg dx dy present total o)^[k] order = order ∧
    swapSchedule cfg dx dy present total order = none := by
  have hnone : swapSchedule cfg dx dy present total order = none := by
    unfold swapSchedule
    rw [if_pos h]
  have hfix : runSwap cfg dx dy present total order = order := by
    simp only [runSwap, hnone]
  exact ⟨Function.iterate_fixed hfix k, hnone⟩

theorem small_stack_noop_c7_witness :
    (fun o => runSwap elasticConfig 60 70 (fun _ => true) 1 o)^[3] [0] = [0] ∧
    swapSchedule elasticConfig 60 70 (fun _ => true) 1 [0] = none :=
  small_stack_noop_c7 elasticConfig 60 70 (fun _ => true) 1 [0] 3 (by decide)

/-- C10: if the front card's handle is absent when a rotation fires, `swap`
returns before scheduling anything — no timeline, no phase for any card,
no commit — and the Order is exactly unchanged. -/
theorem front_handle_missing_c10 (cfg : SwapConfig) (dx dy : ℚ)
    (present : ℕ → Bool) (total front : ℕ) (rest : List ℕ)
    (hfront : present front = false) :
    swapSchedule cfg dx dy present total (front :: rest) = none ∧
    runSwap cfg dx dy present total (front :: rest) = front :: rest := by
  have hnone : swapSchedule cfg dx dy present total (front :: rest) = none := by
    unfold swapSchedule
    split
    · rfl
    · simp [hfront]
  exact ⟨hnone, by simp only [runSwap, hnone]⟩

theorem front_handle_missing_c10_witness :
    swapSchedule elasticConfig 60 70 (fun _ => false) 3 (0 :: [1, 2]) = none ∧
    runSwap elasticConfig 60 70 (fun _ => false) 3 (0 :: [1, 2]) = 0 :: [1, 2] :=
  front_handle_missing_c10 elasticConfig 60 70 (fun _ => false) 3 0 [1, 2] rfl

/-- C8: if a remaining card's handle is absent during a rotation, the
engine still schedules the cycle but skips every phase for that card (no
event targets it), without any error, and the commit still produces
`[...rest, front]`, so the Order stays a permutation of what it was. -/
theorem missing_rest_handle_c8 (cfg : SwapConfig) (dx dy : ℚ)
    (present : ℕ → Bool) (total front idx : ℕ) (rest : List ℕ)
    (hfront : present front = true) (hidx : present idx = false)
    (hrest : rest ≠ []) :
    ∃ evs, swapSchedule cfg dx dy present total (front :: rest) = some evs ∧
      (∀ e ∈ evs, e.card? ≠ some idx) ∧
      applyCommits (front :: rest) evs = rest ++ [front] ∧
      (applyCommits (front :: rest) evs).Perm (front :: rest) := by
  refine ⟨_, swapSchedule_cons cfg dx dy present total front rest hrest hfront,
    ?_, applyCommits_append_commit _ _ _ _, ?_⟩
  · intro e he
    rcases List.mem_append.1 he with hpre | hc
    · obtain ⟨c, hcard, hc⟩ := mem_swapPreEvents hpre
      rw [hcard]
      intro hsome
      injection hsome with h'
      subst h'
      rcases hc with h1 | ⟨_, hpr⟩
      · rw [h1, hfront] at hidx
        exact Bool.noConfusion hidx
      · rw [hpr] at hidx
        exact Bool.noConfusion hidx
    · rcases List.mem_singleton.1 hc with rfl
      simp [TLEvent.card?]
  · rw [applyCommits_append_commit]
    exact List.perm_append_singleton _ _

theorem missing_rest_handle_c8_witness :
    ∃ evs, swapSchedule elasticConfig 60 70 (fun j => j == 0 || j == 2) 3
        (0 :: [1, 2]) = some evs ∧
      (∀ e ∈ evs, e.card? ≠ some 1) ∧
      applyCommits (0 :: [1, 2]) evs = [1, 2] ++ [0] ∧
      (applyCommits (0 :: [1, 2]) evs).Perm (0 :: [1, 2]) :=
  missing_rest_handle_c8 elasticConfig 60 70 (fun j => j == 0 || j == 2) 3 0 1
    [1, 2] rfl rfl (by decide)

/-- C3 counterexample: with 3 cards, elastic preset, all handles mounted,
the Order right after `swap` returns (playhead 0) is still `[0, 1, 2]`, not
the rotated `[1, 2, 0]`: the commit is a `tl.call` scheduled at timeline
position 2.35, so it is not performed synchronously at scheduling time and
does depend on the timeline playing to its end. -/
theorem commit_not_sync_c3_cex :
    applyCommitsUpTo 0 [0, 1, 2]
        ((swapSchedule elasticConfig 60 70 (fun _ => true) 3 [0, 1, 2]).getD [])
      = [0, 1, 2] ∧
    applyCommits [0, 1, 2]
        ((swapSchedule elasticConfig 60 70 (fun _ => true) 3 [0, 1, 2]).getD [])
      = [1, 2, 0] ∧
    ([0, 1, 2] : List ℕ) ≠ [1, 2, 0] ∧
    TLEvent.commit [1, 2, 0] (47 / 20 : ℚ) ∈
      ((swapSchedule elasticConfig 60 70 (fun _ => true) 3 [0, 1, 2]).getD []) := by
  have hs := swapSchedule_cons elasticConfig 60 70 (fun _ => true) 3 0 [1, 2]
    (by decide) rfl
  have htl : tlEnd (swapPreEvents elasticConfig 60 70 (fun _ => true) 3 0 [1, 2])
      = 47 / 20 := by
    norm_num [tlEnd, swapPreEvents, swapPromoteEvents, TLEvent.endTime,
      elasticConfig, makeSlot, max_def, List.enum, List.enumFrom]
  have hcons : ([0, 1, 2] : List ℕ) = 0 :: [1, 2] := rfl
  refine ⟨?_, ?_, by decide, ?_⟩
  · rw [hcons, hs, Option.getD_some, applyCommitsUpTo_append_commit,
      if_neg (by rw [htl]; norm_num)]
    refine applyCommitsUpTo_of_no_commit 0 _ _ ?_
    intro e he
    obtain ⟨c, hc, _⟩ := mem_swapPreEvents he
    rw [hc]
    rfl
  · rw [hcons, hs, Option.getD_some, applyCommits_append_commit]
    decide
  · rw [hcons, hs, Option.getD_some, ← htl]
    exact List.mem_append.2 (Or.inr (List.mem_singleton.2 rfl))

/-- C3 amended: in every rotation cycle the Order update is scheduled as the
final callback of the animation timeline, positioned at the end of all
scheduled phases (strictly after scheduling time 0); the Order is unchanged
at the moment `swap` returns and becomes `[...rest, front]` once the
timeline has played through that callback. -/
theorem commit_at_timeline_end_c3 (cfg : SwapConfig) (dx dy : ℚ)
    (present : ℕ → Bool) (total front : ℕ) (rest : List ℕ)
    (hrest : rest ≠ []) (hfront : present front = true)
    (hdrop : 0 < cfg.durDrop) :
    ∃ evs t, swapSchedule cfg dx dy present total (front :: rest) = some evs ∧
      TLEvent.commit (rest ++ [front]) t ∈ evs ∧
      (∀ e ∈ evs, e.endTime ≤ t) ∧
      0 < t ∧
      applyCommitsUpTo 0 (front :: rest) evs = front :: rest ∧
      applyCommits (front :: rest) evs = rest ++ [front] := by
  have hmemDrop : TLEvent.dropTween front 0 cfg.durDrop ∈
      swapPreEvents cfg dx dy present total front rest := by
    simp [swapPreEvents]
  have hpos : 0 < tlEnd (swapPreEvents cfg dx dy present total front rest) := by
    have h := le_tlEnd hmemDrop
    simp only [TLEvent.endTime, zero_add] at h
    linarith
  have hnoc : ∀ e ∈ swapPreEvents cfg dx dy present total front rest,
      (TLEvent.card? e).isSome := by
    intro e he
    obtain ⟨c, hc, _⟩ := mem_swapPreEvents he
    rw [hc]
    rfl
  refine ⟨_, tlEnd (swapPreEvents cfg dx dy present total front rest),
    swapSchedule_cons cfg dx dy present total front rest hrest hfront,
    List.mem_append.2 (Or.inr (List.mem_singleton.2 rfl)), ?_, hpos, ?_, ?_⟩
  · intro e he
    rcases List.mem_append.1 he with h | h
    · exact le_tlEnd h
    · rcases List.mem_singleton.1 h with rfl
      exact le_refl _
  · rw [applyCommitsUpTo_append_commit, if_neg (by linarith)]
    exact applyCommitsUpTo_of_no_commit 0 _ _ hnoc
  · exact applyCommits_append_commit _ _ _ _

theorem commit_at_timeline_end_c3_witness :
    ∃ evs t, swapSchedule elasticConfig 60 70 (fun _ => true) 3
        (0 :: [1, 2]) = some evs ∧
      TLEvent.commit ([1, 2] ++ [0]) t ∈ evs ∧
      (∀ e ∈ evs, e.endTime ≤ t) ∧
      0 < t ∧
      applyCommitsUpTo 0 (0 :: [1, 2]) evs = 0 :: [1, 2] ∧
      applyCommits (0 :: [1, 2]) evs = [1, 2] ++ [0] :=
  commit_at_timeline_end_c3 elasticConfig 60 70 (fun _ => true) 3 0 [1, 2]
    (by decide) rfl (by norm_num [elasticConfig])

/-- C6 counterexample: after one completed rotation the Order is
`[1, 2, 0]`, so card 0's display position is 2; but the click handler
injected into child 0 invokes `onCardClick` with 0, the child's stable
index — not its display position. -/
theorem click_position_c6_cex :
    clickCallbackArg 0 = 0 ∧
    displayPosition (rotateEngineStep elasticConfig 60 70 (List.range 3)) 0 = 2 ∧
    clickCallbackArg 0 ≠
      displayPosition (rotateEngineStep elasticConfig 60 70 (List.range 3)) 0 := by
  refine ⟨?_, ?_, ?_⟩ <;> decide

/-- C6 amended: the click callback is invoked with the clicked card's stable
index in the children array (its identifier); this coincides with the
card's display position exactly in states of the Order where the card sits
at the position equal to its index (e.g. the initial identity order). -/
theorem click_stable_index_c6 (order : List ℕ) (card : ℕ)
    (h : order.indexOf card = card) :
    clickCallbackArg card = card ∧
    clickCallbackArg card = displayPosition order card := by
  refine ⟨rfl, ?_⟩
  unfold clickCallbackArg displayPosition
  exact h.symm

theorem click_stable_index_c6_witness :
    clickCallbackArg 1 = 1 ∧
    clickCallbackArg 1 = displayPosition [0, 1, 2] 1 :=
  click_stable_index_c6 [0, 1, 2] 1 (by decide)

/-! ## Engine state machine lemmas -/

theorem tick_swapCalls (cfg : MachineConfig) (s : Engine) :
    (tick cfg s).swapCalls = (timerStep cfg s).swapCalls := rfl

theorem tick_timerActive (cfg : MachineConfig) (s : Engine) :
    (tick cfg s).timerActive = (timerStep cfg s).timerActive := rfl

theorem tick_timerRemaining (cfg : MachineConfig) (s : Engine) :
    (tick cfg s).timerRemaining = (timerStep cfg s).timerRemaining := rfl

theorem advanceTLs_all_paused (order : List ℕ) (tls : List TimelineM)
    (h : ∀ t ∈ tls, t.paused = true) : advanceTLs order tls = (order, tls) := by
  induction tls with
  | nil => rfl
  | cons t rest ih =>
    have hp : t.paused = true := h t (List.mem_cons_self _ _)
    have hr := ih fun x hx => h x (List.mem_cons_of_mem _ hx)
    simp [advanceTLs, hr, hp]

theorem tick_of_paused (cfg : MachineConfig) (s : Engine)
    (hA : s.timerActive = false) (h : ∀ t ∈ s.timelines, t.paused = true) :
    tick cfg s = s := by
  have ht : timerStep cfg s = s := by
    simp [timerStep, hA]
  simp [tick, ht, advanceTLs_all_paused s.order s.timelines h]

theorem pauseM_timelines_paused (s : Engine) (h : s.timelines.length ≤ 1) :
    ∀ t ∈ (pauseM s).timelines, t.paused = true := by
  cases hs : s.timelines with
  | nil => simp [pauseM, setTlRefPaused, hs]
  | cons t rest =>
    have hnil : rest = [] := by
      rw [hs] at h
      simp only [List.length_cons] at h
      exact List.eq_nil_of_length_eq_zero (by omega)
    subst hnil
    simp [pauseM, setTlRefPaused, hs]

theorem iterate_tick_swapCalls (cfg : MachineConfig) :
    ∀ (m : ℕ) (s : Engine), s.timerActive = true → m < s.timerRemaining →
      ((tick cfg)^[m] s).swapCalls = s.swapCalls := by
  intro m
  induction m with
  | zero => intro s _ _; rfl
  | succ k ih =>
    intro s hA hR
    have h2 : ¬ s.timerRemaining ≤ 1 := by omega
    have hts : timerStep cfg s = { s with timerRemaining := s.timerRemaining - 1 } := by
      simp [timerStep, hA, h2]
    rw [Function.iterate_succ_apply]
    have htA : (tick cfg s).timerActive = true := by
      rw [tick_timerActive, hts]
      exact hA
    have hkR : k < (tick cfg s).timerRemaining := by
      rw [tick_timerRemaining, hts]
      show k < s.timerRemaining - 1
      omega
    rw [ih (tick cfg s) htA hkR, tick_swapCalls, hts]

theorem swapM_inv (cfg : MachineConfig) (n : ℕ) (s : Engine)
    (h : EngineInv n s) : EngineInv n (swapM cfg s) := by
  obtain ⟨h1, h2⟩ := h
  unfold swapM
  split
  · exact ⟨h1, h2⟩
  · split
    · exact ⟨h1, h2⟩
    · next front rest heq =>
      split
      · refine ⟨h1, ?_⟩
        intro t ht
        rcases List.mem_cons.1 ht with rfl | ht
        · show (rest ++ [front]).Perm (List.range n)
          have hfr : (front :: rest).Perm (List.range n) := heq ▸ h1
          exact (List.perm_append_singleton _ _).trans hfr
        · exact h2 t ht
      · exact ⟨h1, h2⟩

theorem advanceTLs_inv (n : ℕ) (order : List ℕ) (tls : List TimelineM)
    (h1 : order.Perm (List.range n))
    (h2 : ∀ t ∈ tls, t.commitOrder.Perm (List.range n)) :
    (advanceTLs order tls).1.Perm (List.range n) ∧
      ∀ t ∈ (advanceTLs order tls).2, t.commitOrder.Perm (List.range n) := by
  induction tls with
  | nil => exact ⟨h1, by simp [advanceTLs]⟩
  | cons t rest ih =>
    obtain ⟨ih1, ih2⟩ := ih fun x hx => h2 x (List.mem_cons_of_mem _ hx)
    have hT := h2 t (List.mem_cons_self _ _)
    simp only [advanceTLs]
    split
    · refine ⟨ih1, ?_⟩
      intro x hx
      rcases List.mem_cons.1 hx with rfl | hx
      · exact hT
      · exact ih2 x hx
    · split
      · exact ⟨hT, ih2⟩
      · refine ⟨ih1, ?_⟩
        intro x hx
        rcases List.mem_cons.1 hx with rfl | hx
        · exact hT
        · exact ih2 x hx

theorem setTlRefPaused_inv (n : ℕ) (b : Bool) (tls : List TimelineM)
    (h : ∀ t ∈ tls, t.commitOrder.Perm (List.range n)) :
    ∀ t ∈ setTlRefPaused b tls, t.commitOrder.Perm (List.range n) := by
  cases tls with
  | nil => simp [setTlRefPaused]
  | cons t rest =>
    intro x hx
    simp only [setTlRefPaused] at hx
    rcases List.mem_cons.1 hx with rfl | hx
    · exact h t (List.mem_cons_self _ _)
    · exact h x (List.mem_cons_of_mem _ hx)

theorem applyOp_inv (cfg : MachineConfig) (n : ℕ) (s : Engine) (op : EngineOp)
    (h : EngineInv n s) : EngineInv n (applyOp cfg s op) := by
  cases op with
  | swapOp => exact swapM_inv cfg n s h
  | pauseOp => exact ⟨h.1, setTlRefPaused_inv n true s.timelines h.2⟩
  | resumeOp => exact ⟨h.1, setTlRefPaused_inv n false s.timelines h.2⟩
  | tickOp =>
    have hts : EngineInv n (timerStep cfg s) := by
      unfold timerStep
      split
      · split
        · exact swapM_inv cfg n _ ⟨h.1, h.2⟩
        · exact ⟨h.1, h.2⟩
      · exact h
    obtain ⟨ha1, ha2⟩ := advanceTLs_inv n (timerStep cfg s).order
      (timerStep cfg s).timelines hts.1 hts.2
    exact ⟨ha1, ha2⟩

theorem runOps_inv (cfg : MachineConfig) (n : ℕ) (ops : List EngineOp) :
    ∀ s : Engine, EngineInv n s → EngineInv n (runOps cfg s ops) := by
  induction ops with
  | nil => exact fun s h => h
  | cons op ops ih => exact fun s h => ih _ (applyOp_inv cfg n s op h)

/-- C4: after any sequence of engine operations (time, hover pause/resume,
swap invocations) starting from the mount state with N cards, the Order is
still a permutation of `[0..N-1]` — full, no duplicates, no gaps; every
operation preserves the invariant. -/
theorem order_permutation_c4 (cfg : MachineConfig) (n : ℕ)
    (ops : List EngineOp) :
    ((runOps cfg (initEngine cfg n) ops).order).Perm (List.range n) :=
  (runOps_inv cfg n ops (initEngine cfg n)
    ⟨List.Perm.refl _, fun t ht => absurd ht (List.not_mem_nil t)⟩).1

/-- C5: with pause-on-hover active, after the pause handler runs no amount
of elapsed time completes a rotation cycle (the Order and the number of
`swap` invocations are unchanged), and the resume handler re-arms the
repeating timer with the full configured interval, so a resume followed by
a second pause less than a full interval later triggers no rotation (the
number of `swap` invocations is still unchanged). The hypothesis restricts
to at most one in-flight timeline — the non-overlapping-cycles discipline
of the reference configuration, where the interval exceeds the timeline
duration. -/
theorem pause_resume_c5 (cfg : MachineConfig) (s : Engine)
    (h1 : s.timelines.length ≤ 1) (n m : ℕ) (hm : m < cfg.delay) :
    ((tick cfg)^[n] (pauseM s)).order = s.order ∧
    ((tick cfg)^[n] (pauseM s)).swapCalls = s.swapCalls ∧
    (pauseM ((tick cfg)^[m] (resumeM cfg ((tick cfg)^[n] (pauseM s))))).swapCalls
      = s.swapCalls := by
  have hall := pauseM_timelines_paused s h1
  have hfix : tick cfg (pauseM s) = pauseM s :=
    tick_of_paused cfg (pauseM s) rfl hall
  have hiter : (tick cfg)^[n] (pauseM s) = pauseM s :=
    Function.iterate_fixed hfix n
  rw [hiter]
  refine ⟨rfl, rfl, ?_⟩
  have hrs : (resumeM cfg (pauseM s)).timerActive = true := rfl
  have hrr : m < (resumeM cfg (pauseM s)).timerRemaining := hm
  exact iterate_tick_swapCalls cfg m (resumeM cfg (pauseM s)) hrs hrr

theorem pause_resume_c5_witness :
    ((tick (MachineConfig.mk 5 3 fun _ => true))^[7]
        (pauseM (Engine.mk [0, 1, 2] [TimelineM.mk 3 [1, 2, 0] false] true 5 1))).order
      = (Engine.mk [0, 1, 2] [TimelineM.mk 3 [1, 2, 0] false] true 5 1).order ∧
    ((tick (MachineConfig.mk 5 3 fun _ => true))^[7]
        (pauseM (Engine.mk [0, 1, 2] [TimelineM.mk 3 [1, 2, 0] false] true 5 1))).swapCalls
      = (Engine.mk [0, 1, 2] [TimelineM.mk 3 [1, 2, 0] false] true 5 1).swapCalls ∧
    (pauseM ((tick (MachineConfig.mk 5 3 fun _ => true))^[4]
        (resumeM (MachineConfig.mk 5 3 fun _ => true)
          ((tick (MachineConfig.mk 5 3 fun _ => true))^[7]
            (pauseM (Engine.mk [0, 1, 2] [TimelineM.mk 3 [1, 2, 0] false] true 5 1)))))).swapCalls
      = (Engine.mk [0, 1, 2] [TimelineM.mk 3 [1, 2, 0] false] true 5 1).swapCalls :=
  pause_resume_c5 (MachineConfig.mk 5 3 fun _ => true)
    (Engine.mk [0, 1, 2] [TimelineM.mk 3 [1, 2, 0] false] true 5 1)
    (by decide) 7 4 (by decide)

/-- C9: the scroll-activated highlighter keeps a single active index,
initialized to the first region (index 0); whenever an observed region
enters the activation band the active index becomes that region's index
(most recently entered wins); in particular region 2 entering makes 2
active and region 0 entering afterwards makes 0 active. -/
theorem highlighter_c9 :
    runObserver [] = 0 ∧
    (∀ (pre : List (List (ℕ × Bool))) (i : ℕ),
      runObserver (pre ++ [[(i, true)]]) = i) ∧
    runObserver [[(2, true)]] = 2 ∧
    runObserver [[(2, true)], [(0, true)]] = 0 := by
  refine ⟨rfl, ?_, rfl, rfl⟩
  intro pre i
  simp [runObserver, List.foldl_append, observerCallback]
